import Mathlib

set_option linter.unusedVariables false

/-! Shallow embedding of the librsv crate (src/lib.rs), an encoder and
decoder for the RSV binary tabular format.  Bytes are modelled as natural
numbers below 256, Rust byte slices as lists of bytes, and the Rust owned
String type as a wrapper around its UTF-8 bytes.  The lazy row and value
iterators produced by RsvReader.rows and RsvRow.values are modelled as
step functions on their cursor state (the remaining slice), and iterator
collection as the recursion that drives a step function until it either
stops cleanly or returns an error. -/

/-- Row termination byte (const END_ROW in lib.rs). -/
def END_ROW : Nat := 0xFD

/-- Byte that represents an absent value (const NULL_VALUE in lib.rs). -/
def NULL_VALUE : Nat := 0xFE

/-- Value termination byte (const END_VALUE in lib.rs). -/
def END_VALUE : Nat := 0xFF

/-- Errors encountered while parsing an RSV stream (enum Error in lib.rs).
The Rust BadUTF8 variant carries the underlying Utf8Error detail; every
use in the crate obtains that payload from std::str::from_utf8 on the
value span being decoded, so the payload is abstracted away here. -/
inductive Error : Type where
  | UnterminatedRow : Error
  | UnterminatedValue : Error
  | BadUTF8 : Error
  deriving DecidableEq, Repr

/-- Rust owned String, represented by its UTF-8 bytes. -/
structure RustString : Type where
  data : List Nat
  deriving DecidableEq, Repr

/-- Models str::to_string, the owned copy of a borrowed string taken by
decode_rsv. -/
def to_string (s : List Nat) : RustString := ⟨s⟩

/-- Helper state for the UTF-8 validity check: the list of inclusive byte
ranges still expected before the next character may begin.  The lead byte
dispatch follows the UTF-8 table used by std::str::from_utf8: ASCII,
C2..DF + 1 continuation, E0/ED with restricted first continuation and
E1..EC, EE, EF with plain continuations, F0/F4 with restricted first
continuation and F1..F3 plain, everything else rejected. -/
def validUtf8From : List (Nat × Nat) → List Nat → Bool
  | [], [] => true
  | _ :: _, [] => false
  | [], b :: rest =>
      if b ≤ 0x7F then validUtf8From [] rest
      else if b < 0xC2 then false
      else if b ≤ 0xDF then validUtf8From [(0x80, 0xBF)] rest
      else if b = 0xE0 then validUtf8From [(0xA0, 0xBF), (0x80, 0xBF)] rest
      else if b = 0xED then validUtf8From [(0x80, 0x9F), (0x80, 0xBF)] rest
      else if b ≤ 0xEF then validUtf8From [(0x80, 0xBF), (0x80, 0xBF)] rest
      else if b = 0xF0 then validUtf8From [(0x90, 0xBF), (0x80, 0xBF), (0x80, 0xBF)] rest
      else if b ≤ 0xF3 then validUtf8From [(0x80, 0xBF), (0x80, 0xBF), (0x80, 0xBF)] rest
      else if b = 0xF4 then validUtf8From [(0x80, 0x8F), (0x80, 0xBF), (0x80, 0xBF)] rest
      else false
  | (lo, hi) :: expect, b :: rest => (lo ≤ b && b ≤ hi) && validUtf8From expect rest

/-- UTF-8 validity of a byte sequence, exactly the sequences accepted by
std::str::from_utf8 (no overlong forms, no surrogates, maximum U+10FFFF). -/
def validUtf8 (l : List Nat) : Bool := validUtf8From [] l

/-- Models std::str::from_utf8 as used on a value span: the borrowed str is
the same bytes, invalid data is reported as Error::BadUTF8. -/
def from_utf8 (bytes : List Nat) : Except Error (List Nat) :=
  if validUtf8 bytes then .ok bytes else .error .BadUTF8

/-- Models the AsRef str bound used by encode_rsv: a view of the value as
string bytes. -/
class AsRefStr (V : Type) where
  as_ref : V → List Nat

instance : AsRefStr (List Nat) := ⟨fun s => s⟩

instance : AsRefStr RustString := ⟨RustString.data⟩

/-- Writer struct (struct RsvWriter in lib.rs): the accumulated buffer and
the flag recording whether a row has been started. -/
structure RsvWriter : Type where
  buffer : List Nat
  started_row : Bool
  deriving DecidableEq, Repr

namespace RsvWriter

/-- Creates a new RsvWriter with the given buffer (RsvWriter::with_buffer). -/
def with_buffer (buffer : List Nat) : RsvWriter := ⟨buffer, false⟩

/-- Creates a new RsvWriter (RsvWriter::new). -/
def new : RsvWriter := with_buffer []

/-- Creates a new RsvWriter with a given initial capacity
(RsvWriter::with_capacity).  Capacity only preallocates; it has no
observable effect on the byte contents, so the buffer starts empty. -/
def with_capacity (capacity : Nat) : RsvWriter := with_buffer []

/-- Begins a new row (RsvWriter::start_row): if a previous row was started,
the row terminator is written first. -/
def start_row (w : RsvWriter) : RsvWriter :=
  ⟨if w.started_row then w.buffer ++ [END_ROW] else w.buffer, true⟩

/-- Pushes a value to the current row (RsvWriter::push).  The Rust code
asserts that a row has been started and panics otherwise; the panic is
modelled as the none result. -/
def push (w : RsvWriter) (value : Option (List Nat)) : Option RsvWriter :=
  if w.started_row then
    some ⟨(w.buffer ++ (match value with
      | some str => str
      | none => [NULL_VALUE])) ++ [END_VALUE], w.started_row⟩
  else none

/-- Pushes a string value to the current row (RsvWriter::push_str). -/
def push_str (w : RsvWriter) (value : List Nat) : Option RsvWriter :=
  w.push (some value)

/-- Pushes an empty value to the current row (RsvWriter::push_null). -/
def push_null (w : RsvWriter) : Option RsvWriter :=
  w.push none

/-- Finishes writing and returns the inner buffer (RsvWriter::finish):
appends the final row terminator when a row was started. -/
def finish (w : RsvWriter) : List Nat :=
  if w.started_row then w.buffer ++ [END_ROW] else w.buffer

end RsvWriter

/-- Convenience method for encoding an RSV document (encode_rsv in lib.rs):
drives a writer through start_row and push for every row and value.  Since
push models its assertion with an Option result the driver runs in the
Option monad; the pushes always follow a start_row, so the result is in
fact always some buffer. -/
def encode_rsv {V : Type} [AsRefStr V] (rows : List (List (Option V))) :
    Option (List Nat) := do
  let w ← rows.foldlM (fun w row =>
    row.foldlM (fun w value => w.push (value.map AsRefStr.as_ref)) w.start_row)
    RsvWriter.new
  pure w.finish

/-- Reader struct (struct RsvReader in lib.rs): a borrowed byte buffer. -/
structure RsvReader : Type where
  data : List Nat
  deriving DecidableEq, Repr

/-- Row struct (struct RsvRow in lib.rs): the borrowed bytes of one row. -/
structure RsvRow : Type where
  data : List Nat
  deriving DecidableEq, Repr

/-- Creates a new RsvReader from the provided buffer (RsvReader::new). -/
def RsvReader.new (data : List Nat) : RsvReader := ⟨data⟩

/-- Creates a new RsvRow from the provided buffer (RsvRow::new). -/
def RsvRow.new (data : List Nat) : RsvRow := ⟨data⟩

/-- Models slice::iter().position(pred): index of the first byte satisfying
the predicate. -/
def position (pred : Nat → Bool) : List Nat → Option Nat
  | [] => none
  | b :: rest => if pred b then some 0 else (position pred rest).map (· + 1)

/-- Initial cursor state of the lazy row iterator returned by
RsvReader::rows: the whole remaining buffer. -/
def RsvReader.rows (r : RsvReader) : List Nat := r.data

/-- Initial cursor state of the lazy value iterator returned by
RsvRow::values: the whole row slice. -/
def RsvRow.values (row : RsvRow) : List Nat := row.data

/-- One call to next() on the row iterator built in RsvReader::rows.  The
result pairs the yielded item (none when the iterator is exhausted) with
the cursor state after the call. -/
def rows_next (remain : List Nat) : Option (Except Error RsvRow) × List Nat :=
  if remain.isEmpty then (none, remain)
  else
    match position (fun c => c == END_ROW) remain with
    | none => (some (.error .UnterminatedRow), remain)
    | some terminator =>
      (some (.ok (RsvRow.new (remain.take terminator))), remain.drop (terminator + 1))

/-- One call to next() on the value iterator built in RsvRow::values.  Note
that the cursor is advanced past the value terminator before the value
bytes are inspected, exactly as in the Rust code. -/
def values_next (remain : List Nat) : Option (Except Error (Option (List Nat))) × List Nat :=
  if remain.isEmpty then (none, remain)
  else
    match position (fun c => c == END_VALUE) remain with
    | none => (some (.error .UnterminatedValue), remain)
    | some terminator =>
      if remain.take terminator = [NULL_VALUE] then
        (some (.ok none), remain.drop (terminator + 1))
      else
        (some ((from_utf8 (remain.take terminator)).map some), remain.drop (terminator + 1))

/-- State and yielded item of the row iterator after n further calls to
next(). -/
def rows_next_n : List Nat → Nat → Option (Except Error RsvRow) × List Nat
  | remain, 0 => rows_next remain
  | remain, n + 1 => rows_next_n (rows_next remain).2 n

/-- State and yielded item of the value iterator after n further calls to
next(). -/
def values_next_n : List Nat → Nat → Option (Except Error (Option (List Nat))) × List Nat
  | remain, 0 => values_next remain
  | remain, n + 1 => values_next_n (values_next remain).2 n

/-- Length strictly decreases across a successful value iteration step. -/
theorem values_next_ok_length (remain rest : List Nat) (v : Option (List Nat))
    (h : values_next remain = (some (.ok v), rest)) : rest.length < remain.length := by
  unfold values_next at h
  split at h
  · exact absurd (congrArg Prod.fst h) (by simp)
  · rename_i hne
    split at h
    · exact absurd (congrArg Prod.fst h) (by simp)
    · have hlen : 0 < remain.length := by
        cases remain with
        | nil => simp [List.isEmpty] at hne
        | cons b bs => simp
      split at h
      all_goals
        have h2 := congrArg Prod.snd h
        simp at h2
        subst h2
        simp [List.length_drop]
        omega

/-- Length strictly decreases across a successful row iteration step. -/
theorem rows_next_ok_length (remain rest : List Nat) (row : RsvRow)
    (h : rows_next remain = (some (.ok row), rest)) : rest.length < remain.length := by
  unfold rows_next at h
  split at h
  · exact absurd (congrArg Prod.fst h) (by simp)
  · rename_i hne
    split at h
    · exact absurd (congrArg Prod.fst h) (by simp)
    · have hlen : 0 < remain.length := by
        cases remain with
        | nil => simp [List.isEmpty] at hne
        | cons b bs => simp
      have h2 := congrArg Prod.snd h
      simp at h2
      subst h2
      simp [List.length_drop]
      omega

/-- Drives the value iterator to the end, collecting the yielded items into
a list, short circuiting at the first error: this is the
values().map(g).collect::<Result<_, _>>() pattern of decode_rsv and
decode_rsv_borrowed, with g the per item map applied to each Ok value
(the identity for decode_rsv_borrowed, an owned copy for decode_rsv). -/
def values_collect {α : Type} (g : Option (List Nat) → α) (remain : List Nat) :
    Except Error (List α) :=
  match h : values_next remain with
  | (none, _) => .ok []
  | (some (.error e), _) => .error e
  | (some (.ok v), rest) => (values_collect g rest).map (fun vs => g v :: vs)
termination_by remain.length
decreasing_by exact values_next_ok_length remain rest v h

/-- Drives the row iterator to the end, parsing the values of each row as
it is yielded and short circuiting at the first error: this is the
rows().map(|row| row?.values() ... collect()).collect() pattern shared by
decode_rsv and decode_rsv_borrowed. -/
def rows_collect {α : Type} (g : Option (List Nat) → α) (remain : List Nat) :
    Except Error (List (List α)) :=
  match h : rows_next remain with
  | (none, _) => .ok []
  | (some (.error e), _) => .error e
  | (some (.ok row), rest) =>
    match values_collect g row.values with
    | .error e => .error e
    | .ok vs => (rows_collect g rest).map (fun rows => vs :: rows)
termination_by remain.length
decreasing_by exact rows_next_ok_length remain rest row h

/-- Convenience method for decoding an RSV document into owned data
(decode_rsv in lib.rs): each borrowed value is copied with to_string. -/
def decode_rsv (data : List Nat) : Except Error (List (List (Option RustString))) :=
  rows_collect (fun v => v.map (fun s => to_string s)) (RsvReader.new data).rows

/-- Convenience method for decoding an RSV document into values borrowing
from the encoded bytes (decode_rsv_borrowed in lib.rs). -/
def decode_rsv_borrowed (data : List Nat) : Except Error (List (List (Option (List Nat)))) :=
  rows_collect (fun v => v) (RsvReader.new data).rows

/-- One writer method call, for reasoning about arbitrary call sequences
against the writer API. -/
inductive WriterCall : Type where
  | start_row : WriterCall
  | push : Option (List Nat) → WriterCall
  | push_str : List Nat → WriterCall
  | push_null : WriterCall
  deriving DecidableEq, Repr

/-- Executes one writer call; none models the assertion failure in push. -/
def run_call (w : RsvWriter) : WriterCall → Option RsvWriter
  | .start_row => some w.start_row
  | .push v => w.push v
  | .push_str s => w.push_str s
  | .push_null => w.push_null

/-- Executes a sequence of writer calls from the given writer state. -/
def run_calls (w : RsvWriter) : List WriterCall → Option RsvWriter
  | [] => some w
  | c :: cs =>
    match run_call w c with
    | none => none
    | some w2 => run_calls w2 cs

/-- Checks that every push family call in the sequence is preceded by at
least one start_row, given whether a row is already started. -/
def calls_started_ok (started : Bool) : List WriterCall → Bool
  | [] => true
  | .start_row :: cs => calls_started_ok true cs
  | .push _ :: cs => started && calls_started_ok started cs
  | .push_str _ :: cs => started && calls_started_ok started cs
  | .push_null :: cs => started && calls_started_ok started cs

/-- Checks that the pushed value is a UTF-8 string when present: this is
the invariant the Rust str type gives every pushed value for free. -/
def call_values_utf8 : WriterCall → Bool
  | .push (some s) => validUtf8 s
  | .push_str s => validUtf8 s
  | _ => true

/-- Applies start_row to a writer n times. -/
def start_rows : Nat → RsvWriter → RsvWriter
  | 0, w => w
  | n + 1, w => start_rows n w.start_row

/-- Content bytes of one encoded value: the string bytes, or the null
marker byte for an absent value. -/
def value_content : Option (List Nat) → List Nat
  | some s => s
  | none => [NULL_VALUE]

/-- Wire bytes of one encoded value: its content followed by the value
terminator. -/
def value_bytes (v : Option (List Nat)) : List Nat :=
  value_content v ++ [END_VALUE]

/-- Wire bytes of one encoded row: its values followed by the row
terminator. -/
def row_bytes (r : List (Option (List Nat))) : List Nat :=
  r.flatMap value_bytes ++ [END_ROW]

/-- Wire bytes of an encoded document. -/
def doc_bytes (rows : List (List (Option (List Nat)))) : List Nat :=
  rows.flatMap row_bytes

/-- A value as pushable by the writer: absent, or a valid UTF-8 string. -/
def good_val : Option (List Nat) → Bool
  | some s => validUtf8 s
  | none => true

/-- A row of pushable values. -/
def good_row (r : List (Option (List Nat))) : Bool := r.all good_val

/-- A document of pushable rows. -/
def good_doc (rows : List (List (Option (List Nat)))) : Bool := rows.all good_row

/-! Helper lemmas about position, take and drop. -/

theorem position_eq_none (pred : Nat → Bool) (l : List Nat)
    (h : ∀ b ∈ l, pred b = false) : position pred l = none := by
  induction l with
  | nil => rfl
  | cons b rest ih =>
    rw [position]
    rw [h b (List.mem_cons_self b rest)]
    simp only [if_neg Bool.false_ne_true]
    rw [ih (fun x hx => h x (List.mem_cons_of_mem b hx))]
    rfl

theorem position_append_cons (pred : Nat → Bool) (xs : List Nat) (y : Nat) (ys : List Nat)
    (hxs : ∀ b ∈ xs, pred b = false) (hy : pred y = true) :
    position pred (xs ++ y :: ys) = some xs.length := by
  induction xs with
  | nil => simp [position, hy]
  | cons x xs ih =>
    rw [List.cons_append, position]
    rw [hxs x (List.mem_cons_self x xs)]
    simp only [if_neg Bool.false_ne_true]
    rw [ih (fun b hb => hxs b (List.mem_cons_of_mem x hb))]
    rfl

theorem position_some_lt (pred : Nat → Bool) (l : List Nat) (t : Nat)
    (h : position pred l = some t) : t < l.length := by
  induction l generalizing t with
  | nil => simp [position] at h
  | cons b rest ih =>
    rw [position] at h
    split_ifs at h with hb
    · cases h
      simp
    · cases hp : position pred rest with
      | none => rw [hp] at h; simp at h
      | some t2 =>
        rw [hp] at h
        simp only [Option.map_some'] at h
        cases h
        have := ih t2 hp
        simp
        omega

theorem position_some_split (pred : Nat → Bool) (l : List Nat) (t : Nat)
    (h : position pred l = some t) :
    ∃ y, pred y = true ∧ l = l.take t ++ y :: l.drop (t + 1) ∧
      (∀ b ∈ l.take t, pred b = false) := by
  induction l generalizing t with
  | nil => simp [position] at h
  | cons b rest ih =>
    rw [position] at h
    split_ifs at h with hb
    · cases h
      exact ⟨b, hb, by simp, by simp⟩
    · cases hp : position pred rest with
      | none => rw [hp] at h; simp at h
      | some t2 =>
        rw [hp] at h
        simp only [Option.map_some'] at h
        cases h
        obtain ⟨y, hy, heq, hall⟩ := ih t2 hp
        refine ⟨y, hy, ?_, ?_⟩
        · rw [List.take_succ_cons, List.drop_succ_cons]
          rw [List.cons_append]
          exact congrArg (b :: ·) heq
        · intro x hx
          rw [List.take_succ_cons] at hx
          rcases List.mem_cons.mp hx with rfl | hx
          · simpa using hb
          · exact hall x hx

theorem take_len_append {α : Type} (xs ys : List α) : (xs ++ ys).take xs.length = xs :=
  List.take_left xs ys

theorem drop_len_succ_append {α : Type} (xs : List α) (y : α) (ys : List α) :
    (xs ++ y :: ys).drop (xs.length + 1) = ys := by
  have h : xs ++ y :: ys = (xs ++ [y]) ++ ys := by simp
  rw [h]
  have h2 : xs.length + 1 = (xs ++ [y]).length := by simp
  rw [h2]
  exact List.drop_left (xs ++ [y]) ys

theorem getLast_append_right {α : Type} (xs : List α) :
    ∀ ys : List α, ys ≠ [] → (xs ++ ys).getLast? = ys.getLast? := by
  induction xs with
  | nil => simp
  | cons x xs ih =>
    intro ys h
    have h2 : xs ++ ys ≠ [] := by
      intro hc
      rcases List.append_eq_nil.mp hc with ⟨_, h3⟩
      exact h h3
    obtain ⟨z, zs, hz⟩ : ∃ z zs, xs ++ ys = z :: zs := by
      cases hxs : xs ++ ys with
      | nil => exact absurd hxs h2
      | cons z zs => exact ⟨z, zs, rfl⟩
    calc (x :: xs ++ ys).getLast? = (x :: (z :: zs)).getLast? := by rw [List.cons_append, hz]
      _ = (z :: zs).getLast? := List.getLast?_cons_cons
      _ = (xs ++ ys).getLast? := by rw [hz]
      _ = ys.getLast? := ih ys h

/-! Helper lemmas about UTF-8 validity. -/

theorem validUtf8From_le (l : List Nat) : ∀ (expect : List (Nat × Nat)),
    (∀ r ∈ expect, r.2 ≤ 0xBF) → validUtf8From expect l = true → ∀ x ∈ l, x ≤ 0xF4 := by
  induction l with
  | nil => simp
  | cons b rest ih =>
    intro expect hexp h x hx
    match expect with
    | [] =>
      rw [validUtf8From] at h
      split_ifs at h with h1 h2 h3 h4 h5 h6 h7 h8 h9
      all_goals rcases List.mem_cons.mp hx with rfl | hx
      all_goals first
        | omega
        | · refine ih _ ?_ h x hx
            intro r hr
            fin_cases hr <;> norm_num
    | (lo, hi) :: expect2 =>
      rw [validUtf8From] at h
      simp only [Bool.and_eq_true, decide_eq_true_eq] at h
      rcases List.mem_cons.mp hx with rfl | hx
      · have := hexp (lo, hi) (List.mem_cons_self _ _)
        simp at this
        omega
      · exact ih expect2 (fun r hr => hexp r (List.mem_cons_of_mem _ hr)) h.2 x hx

theorem validUtf8_le (l : List Nat) (h : validUtf8 l = true) : ∀ x ∈ l, x ≤ 0xF4 :=
  validUtf8From_le l [] (by simp) h

theorem validUtf8_not_reserved (s : List Nat) (h : validUtf8 s = true) :
    ∀ b ∈ s, b ≠ END_ROW ∧ b ≠ NULL_VALUE ∧ b ≠ END_VALUE := by
  intro b hb
  have := validUtf8_le s h b hb
  refine ⟨?_, ?_, ?_⟩ <;> simp only [END_ROW, NULL_VALUE, END_VALUE] <;> omega

theorem validUtf8_null_marker : validUtf8 [NULL_VALUE] = false := by decide

/-! Characterization of the iterator step functions on shaped inputs. -/

theorem rows_next_nil : rows_next [] = (none, []) := rfl

theorem values_next_nil : values_next [] = (none, []) := rfl

theorem isEmpty_append_cons {α : Type} (xs : List α) (y : α) (ys : List α) :
    (xs ++ y :: ys).isEmpty = false := by
  cases xs <;> rfl

theorem rows_next_no_term (remain : List Nat) (h0 : remain ≠ [])
    (h : ∀ b ∈ remain, b ≠ END_ROW) :
    rows_next remain = (some (.error .UnterminatedRow), remain) := by
  unfold rows_next
  rw [if_neg (by simpa [List.isEmpty_iff] using h0)]
  rw [position_eq_none _ _ (fun b hb => by simpa using h b hb)]

theorem rows_next_found (row rest : List Nat) (hr : ∀ b ∈ row, b ≠ END_ROW) :
    rows_next (row ++ END_ROW :: rest) = (some (.ok (RsvRow.new row)), rest) := by
  unfold rows_next
  rw [if_neg (by simp [isEmpty_append_cons])]
  rw [position_append_cons _ _ _ _ (fun b hb => by simpa using hr b hb) (by simp)]
  simp only [take_len_append, drop_len_succ_append]

theorem values_next_no_term (remain : List Nat) (h0 : remain ≠ [])
    (h : ∀ b ∈ remain, b ≠ END_VALUE) :
    values_next remain = (some (.error .UnterminatedValue), remain) := by
  unfold values_next
  rw [if_neg (by simpa [List.isEmpty_iff] using h0)]
  rw [position_eq_none _ _ (fun b hb => by simpa using h b hb)]

theorem values_next_found (content rest : List Nat) (hc : ∀ b ∈ content, b ≠ END_VALUE) :
    values_next (content ++ END_VALUE :: rest) =
      (if content = [NULL_VALUE] then some (.ok none)
       else some ((from_utf8 content).map some), rest) := by
  unfold values_next
  rw [if_neg (by simp [isEmpty_append_cons])]
  rw [position_append_cons _ _ _ _ (fun b hb => by simpa using hc b hb) (by simp)]
  simp only [take_len_append, drop_len_succ_append]
  split_ifs <;> rfl

/-! Rewrite lemmas for the two collect recursions. -/

theorem values_collect_stop {α : Type} (g : Option (List Nat) → α) (remain s : List Nat)
    (h : values_next remain = (none, s)) : values_collect g remain = .ok [] := by
  conv_lhs => unfold values_collect
  split
  · rfl
  · rename_i heq
    rw [h] at heq
    cases heq
  · rename_i heq
    rw [h] at heq
    cases heq

theorem values_collect_error {α : Type} (g : Option (List Nat) → α) (remain s : List Nat)
    (e : Error) (h : values_next remain = (some (.error e), s)) :
    values_collect g remain = .error e := by
  conv_lhs => unfold values_collect
  split
  · rename_i heq
    rw [h] at heq
    cases heq
  · rename_i e2 s2 heq
    rw [h] at heq
    injection heq with h1 h2
    injection h1 with h1
    injection h1 with h1
    exact congrArg Except.error h1.symm
  · rename_i heq
    rw [h] at heq
    injection heq with h1 h2
    injection h1 with h1
    cases h1

theorem values_collect_ok {α : Type} (g : Option (List Nat) → α)
    (remain rest : List Nat) (v : Option (List Nat))
    (h : values_next remain = (some (.ok v), rest)) :
    values_collect g remain = (values_collect g rest).map (fun vs => g v :: vs) := by
  conv_lhs => unfold values_collect
  split
  · rename_i heq
    rw [h] at heq
    cases heq
  · rename_i heq
    rw [h] at heq
    injection heq with h1 h2
    injection h1 with h1
    cases h1
  · rename_i v2 rest2 heq
    rw [h] at heq
    injection heq with h1 h2
    injection h1 with h1
    injection h1 with h1
    cases h1
    cases h2
    rfl

theorem rows_collect_stop {α : Type} (g : Option (List Nat) → α) (remain s : List Nat)
    (h : rows_next remain = (none, s)) : rows_collect g remain = .ok [] := by
  conv_lhs => unfold rows_collect
  split
  · rfl
  · rename_i heq
    rw [h] at heq
    cases heq
  · rename_i heq
    rw [h] at heq
    cases heq

theorem rows_collect_error {α : Type} (g : Option (List Nat) → α) (remain s : List Nat)
    (e : Error) (h : rows_next remain = (some (.error e), s)) :
    rows_collect g remain = .error e := by
  conv_lhs => unfold rows_collect
  split
  · rename_i heq
    rw [h] at heq
    cases heq
  · rename_i e2 s2 heq
    rw [h] at heq
    injection heq with h1 h2
    injection h1 with h1
    injection h1 with h1
    exact congrArg Except.error h1.symm
  · rename_i heq
    rw [h] at heq
    injection heq with h1 h2
    injection h1 with h1
    cases h1

theorem rows_collect_ok {α : Type} (g : Option (List Nat) → α)
    (remain rest : List Nat) (row : RsvRow)
    (h : rows_next remain = (some (.ok row), rest)) :
    rows_collect g remain =
      match values_collect g row.values with
      | .error e => .error e
      | .ok vs => (rows_collect g rest).map (fun rows => vs :: rows) := by
  conv_lhs => unfold rows_collect
  split
  · rename_i heq
    rw [h] at heq
    cases heq
  · rename_i heq
    rw [h] at heq
    injection heq with h1 h2
    injection h1 with h1
    cases h1
  · rename_i row2 rest2 heq
    rw [h] at heq
    injection heq with h1 h2
    injection h1 with h1
    injection h1 with h1
    cases h1
    cases h2
    rfl


/-! Shape of the bytes produced by the writer and by encode_rsv. -/

theorem push_started_eq (buf : List Nat) (x : Option (List Nat)) :
    (⟨buf, true⟩ : RsvWriter).push x
      = some ⟨(buf ++ value_content x) ++ [END_VALUE], true⟩ := by
  cases x <;> rfl

theorem row_fold_push {V : Type} [AsRefStr V] (row : List (Option V)) :
    ∀ (buf : List Nat),
    row.foldlM (fun w value => w.push (value.map AsRefStr.as_ref)) (⟨buf, true⟩ : RsvWriter)
      = some ⟨buf ++ (row.map (Option.map AsRefStr.as_ref)).flatMap value_bytes, true⟩ := by
  induction row with
  | nil => intro buf; simp
  | cons v vs ih =>
    intro buf
    rw [List.foldlM_cons]
    rw [push_started_eq buf (v.map AsRefStr.as_ref)]
    rw [Option.bind_eq_bind, Option.some_bind]
    rw [ih ((buf ++ value_content (v.map AsRefStr.as_ref)) ++ [END_VALUE])]
    simp [value_bytes, List.append_assoc]

theorem rows_fold_started {V : Type} [AsRefStr V] (rows : List (List (Option V))) :
    ∀ (buf : List Nat),
    rows.foldlM (fun w row =>
        row.foldlM (fun w value => w.push (value.map AsRefStr.as_ref)) w.start_row)
      (⟨buf, true⟩ : RsvWriter)
      = some ⟨buf ++ (rows.map (fun r => r.map (Option.map AsRefStr.as_ref))).flatMap
          (fun r => END_ROW :: r.flatMap value_bytes), true⟩ := by
  induction rows with
  | nil => intro buf; simp
  | cons r rs ih =>
    intro buf
    rw [List.foldlM_cons]
    have hstep : (⟨buf, true⟩ : RsvWriter).start_row = ⟨buf ++ [END_ROW], true⟩ := rfl
    simp only [hstep]
    rw [row_fold_push r (buf ++ [END_ROW])]
    rw [Option.bind_eq_bind, Option.some_bind]
    rw [ih (buf ++ [END_ROW] ++ (r.map (Option.map AsRefStr.as_ref)).flatMap value_bytes)]
    simp [List.append_assoc]

theorem flatMap_sep (rs : List (List (Option (List Nat)))) :
    rs.flatMap (fun r => END_ROW :: r.flatMap value_bytes) ++ [END_ROW]
      = END_ROW :: doc_bytes rs := by
  induction rs with
  | nil => rfl
  | cons r rs ih =>
    simp only [List.flatMap_cons, doc_bytes, row_bytes] at *
    rw [List.append_assoc, ih]
    simp [List.append_assoc]

theorem encode_rsv_eq {V : Type} [AsRefStr V] (rows : List (List (Option V))) :
    encode_rsv rows
      = some (doc_bytes (rows.map (fun r => r.map (Option.map AsRefStr.as_ref)))) := by
  cases rows with
  | nil => rfl
  | cons r rs =>
    unfold encode_rsv
    rw [List.foldlM_cons]
    have h1 : RsvWriter.new.start_row = (⟨[], true⟩ : RsvWriter) := rfl
    simp only [h1]
    rw [row_fold_push r []]
    simp only [Option.bind_eq_bind, Option.some_bind]
    rw [rows_fold_started rs ([] ++ (r.map (Option.map AsRefStr.as_ref)).flatMap value_bytes)]
    simp only [Option.bind_eq_bind, Option.some_bind]
    have h2 : ∀ buf : List Nat,
        (⟨buf, true⟩ : RsvWriter).finish = buf ++ [END_ROW] := fun buf => rfl
    simp only [h2, pure]
    rw [List.nil_append, List.append_assoc, flatMap_sep]
    simp [doc_bytes, row_bytes, List.append_assoc]

/-! Decoding the bytes of a well formed document. -/

theorem value_content_no_term (v : Option (List Nat)) (hv : good_val v = true) :
    ∀ b ∈ value_content v, b ≠ END_VALUE := by
  cases v with
  | none =>
    intro b hb
    simp only [value_content, List.mem_singleton] at hb
    subst hb
    decide
  | some s =>
    intro b hb
    simp only [value_content] at hb
    exact (validUtf8_not_reserved s (by simpa [good_val] using hv) b hb).2.2

theorem body_no_row_term (r : List (Option (List Nat))) (h : good_row r = true) :
    ∀ b ∈ r.flatMap value_bytes, b ≠ END_ROW := by
  intro b hb
  obtain ⟨v, hv, hbv⟩ := List.mem_flatMap.mp hb
  have hgv : good_val v = true := by
    have := (List.all_eq_true.mp h) v hv
    simpa using this
  unfold value_bytes at hbv
  rcases List.mem_append.mp hbv with hbc | hbt
  · cases v with
    | none =>
      simp only [value_content, List.mem_singleton] at hbc
      subst hbc
      decide
    | some s =>
      simp only [value_content] at hbc
      exact (validUtf8_not_reserved s (by simpa [good_val] using hgv) b hbc).1
  · simp only [List.mem_singleton] at hbt
    subst hbt
    decide

theorem values_collect_doc {α : Type} (g : Option (List Nat) → α)
    (r : List (Option (List Nat))) (h : good_row r = true) :
    values_collect g (r.flatMap value_bytes) = .ok (r.map g) := by
  induction r with
  | nil => exact values_collect_stop g [] [] rfl
  | cons v vs ih =>
    have hgv : good_val v = true := by
      have := (List.all_eq_true.mp h) v (List.mem_cons_self v vs)
      simpa using this
    have hgvs : good_row vs = true := by
      simp only [good_row, List.all_cons, Bool.and_eq_true] at h
      exact h.2
    have hshape : (v :: vs).flatMap value_bytes
        = value_content v ++ END_VALUE :: vs.flatMap value_bytes := by
      rw [List.flatMap_cons]
      unfold value_bytes
      rw [List.append_assoc]
      rfl
    rw [hshape]
    cases v with
    | none =>
      rw [show value_content none = [NULL_VALUE] from rfl]
      have hnext := values_next_found (value_content none) (vs.flatMap value_bytes)
        (value_content_no_term none hgv)
      rw [show value_content none = [NULL_VALUE] from rfl] at hnext
      rw [if_pos rfl] at hnext
      rw [values_collect_ok g _ _ none hnext, ih hgvs]
      rfl
    | some s =>
      have hvalid : validUtf8 s = true := by simpa [good_val] using hgv
      have hnotnull : s ≠ [NULL_VALUE] := by
        intro hc
        rw [hc] at hvalid
        rw [validUtf8_null_marker] at hvalid
        cases hvalid
      have hnext := values_next_found s (vs.flatMap value_bytes)
        (value_content_no_term (some s) hgv)
      rw [if_neg hnotnull] at hnext
      rw [from_utf8, if_pos hvalid] at hnext
      rw [show value_content (some s) = s from rfl]
      rw [values_collect_ok g _ _ (some s) hnext, ih hgvs]
      rfl

theorem rows_collect_doc {α : Type} (g : Option (List Nat) → α)
    (rows : List (List (Option (List Nat)))) (h : good_doc rows = true) :
    rows_collect g (doc_bytes rows) = .ok (rows.map (List.map g)) := by
  induction rows with
  | nil => exact rows_collect_stop g [] [] rfl
  | cons r rs ih =>
    have hgr : good_row r = true := by
      have := (List.all_eq_true.mp h) r (List.mem_cons_self r rs)
      simpa using this
    have hgrs : good_doc rs = true := by
      simp only [good_doc, List.all_cons, Bool.and_eq_true] at h
      exact h.2
    have hshape : doc_bytes (r :: rs)
        = r.flatMap value_bytes ++ END_ROW :: doc_bytes rs := by
      unfold doc_bytes row_bytes
      rw [List.flatMap_cons, List.append_assoc]
      rfl
    rw [hshape]
    have hnext := rows_next_found (r.flatMap value_bytes) (doc_bytes rs)
      (body_no_row_term r hgr)
    rw [rows_collect_ok g _ _ _ hnext]
    have hvals : values_collect g (RsvRow.new (r.flatMap value_bytes)).values
        = .ok (r.map g) := values_collect_doc g r hgr
    rw [hvals, ih hgrs]
    rfl

/-! Unfolding equations for the two decode entry points. -/

theorem decode_rsv_eq (data : List Nat) :
    decode_rsv data = rows_collect (fun v => v.map (fun s => to_string s)) data := rfl

theorem decode_rsv_borrowed_eq (data : List Nat) :
    decode_rsv_borrowed data = rows_collect (fun v => v) data := rfl

/-! Behaviour of the iterator step functions on and after errors. -/

theorem rows_next_error_state (remain : List Nat) (e : Error)
    (h : (rows_next remain).1 = some (.error e)) :
    rows_next remain = (some (.error .UnterminatedRow), remain) := by
  unfold rows_next at h ⊢
  by_cases hemp : remain.isEmpty
  · rw [if_pos hemp] at h
    simp at h
  · rw [if_neg hemp] at h ⊢
    cases hp : position (fun c => c == END_ROW) remain with
    | none => rfl
    | some t =>
      simp only [hp] at h
      simp at h

theorem values_next_unterminated_state (remain : List Nat)
    (h : (values_next remain).1 = some (.error .UnterminatedValue)) :
    values_next remain = (some (.error .UnterminatedValue), remain) := by
  unfold values_next at h ⊢
  by_cases hemp : remain.isEmpty
  · rw [if_pos hemp] at h
    simp at h
  · rw [if_neg hemp] at h ⊢
    cases hp : position (fun c => c == END_VALUE) remain with
    | none => rfl
    | some t =>
      simp only [hp] at h
      split_ifs at h with hn
      · simp at h
      · unfold from_utf8 at h
        split_ifs at h with hv
        · simp [Except.map] at h
        · simp [Except.map] at h

theorem rows_next_n_fix (remain : List Nat) (y : Option (Except Error RsvRow))
    (h : rows_next remain = (y, remain)) : ∀ k, rows_next_n remain k = (y, remain) := by
  intro k
  induction k with
  | zero => exact h
  | succ k ih =>
    show rows_next_n (rows_next remain).2 k = (y, remain)
    rw [h]
    exact ih

theorem values_next_n_fix (remain : List Nat) (y : Option (Except Error (Option (List Nat))))
    (h : values_next remain = (y, remain)) : ∀ k, values_next_n remain k = (y, remain) := by
  intro k
  induction k with
  | zero => exact h
  | succ k ih =>
    show values_next_n (values_next remain).2 k = (y, remain)
    rw [h]
    exact ih

theorem rows_next_stop_inv (remain s : List Nat)
    (h : rows_next remain = (none, s)) : remain = [] := by
  unfold rows_next at h
  by_cases hemp : remain.isEmpty
  · exact List.isEmpty_iff.mp hemp
  · rw [if_neg hemp] at h
    cases hp : position (fun c => c == END_ROW) remain with
    | none =>
      simp only [hp] at h
      simp at h
    | some t =>
      simp only [hp] at h
      simp at h

theorem rows_next_ok_inv (remain rest : List Nat) (row : RsvRow)
    (h : rows_next remain = (some (.ok row), rest)) :
    ∃ t, position (fun c => c == END_ROW) remain = some t ∧
      row = RsvRow.new (remain.take t) ∧ rest = remain.drop (t + 1) := by
  unfold rows_next at h
  by_cases hemp : remain.isEmpty
  · rw [if_pos hemp] at h
    simp at h
  · rw [if_neg hemp] at h
    cases hp : position (fun c => c == END_ROW) remain with
    | none =>
      simp only [hp] at h
      simp at h
    | some t =>
      simp only [hp] at h
      simp only [Prod.mk.injEq, Option.some.injEq, Except.ok.injEq] at h
      exact ⟨t, rfl, h.1.symm, h.2.symm⟩

/-! Document byte algebra. -/

theorem doc_bytes_append (rows1 rows2 : List (List (Option (List Nat)))) :
    doc_bytes (rows1 ++ rows2) = doc_bytes rows1 ++ doc_bytes rows2 := by
  simp [doc_bytes]

theorem good_doc_append (rows1 rows2 : List (List (Option (List Nat))))
    (h1 : good_doc rows1 = true) (h2 : good_doc rows2 = true) :
    good_doc (rows1 ++ rows2) = true := by
  unfold good_doc at h1 h2 ⊢
  rw [List.all_append, h1, h2]
  rfl

theorem doc_bytes_replicate (n : Nat) :
    doc_bytes (List.replicate n ([] : List (Option (List Nat))))
      = List.replicate n END_ROW := by
  induction n with
  | zero => rfl
  | succ n ih =>
    rw [List.replicate_succ, List.replicate_succ]
    simp only [doc_bytes, List.flatMap_cons] at *
    rw [ih]
    rfl

theorem good_doc_replicate (n : Nat) :
    good_doc (List.replicate n ([] : List (Option (List Nat)))) = true := by
  apply List.all_eq_true.mpr
  intro r hr
  have hr2 : r = [] := List.eq_of_mem_replicate hr
  subst hr2
  rfl

/-! Decode results on malformed buffers. -/

theorem rows_collect_no_row_term {α : Type} (g : Option (List Nat) → α)
    (data : List Nat) (h0 : data ≠ []) (h : ∀ b ∈ data, b ≠ END_ROW) :
    rows_collect g data = .error .UnterminatedRow :=
  rows_collect_error g data data .UnterminatedRow (rows_next_no_term data h0 h)

theorem rows_collect_unterminated_value {α : Type} (g : Option (List Nat) → α)
    (row rest : List Nat) (h0 : row ≠ [])
    (hv : ∀ b ∈ row, b ≠ END_VALUE) (hr : ∀ b ∈ row, b ≠ END_ROW) :
    rows_collect g (row ++ END_ROW :: rest) = .error .UnterminatedValue := by
  rw [rows_collect_ok g _ _ _ (rows_next_found row rest hr)]
  rw [show (RsvRow.new row).values = row from rfl]
  rw [values_collect_error g row row .UnterminatedValue (values_next_no_term row h0 hv)]

theorem rows_collect_bad_utf8 {α : Type} (g : Option (List Nat) → α)
    (value rest : List Nat) (h1 : value ≠ [NULL_VALUE]) (h2 : validUtf8 value = false)
    (hv : ∀ b ∈ value, b ≠ END_VALUE) (hr : ∀ b ∈ value, b ≠ END_ROW) :
    rows_collect g ((value ++ [END_VALUE]) ++ END_ROW :: rest) = .error .BadUTF8 := by
  have hrowterm : ∀ b ∈ value ++ [END_VALUE], b ≠ END_ROW := by
    intro b hb
    rcases List.mem_append.mp hb with hb | hb
    · exact hr b hb
    · simp only [List.mem_singleton] at hb
      subst hb
      decide
  rw [rows_collect_ok g _ _ _ (rows_next_found (value ++ [END_VALUE]) rest hrowterm)]
  rw [show (RsvRow.new (value ++ [END_VALUE])).values = value ++ [END_VALUE] from rfl]
  have hshape : value ++ [END_VALUE] = value ++ END_VALUE :: ([] : List Nat) := rfl
  rw [hshape]
  have hnext := values_next_found value [] hv
  rw [if_neg h1] at hnext
  rw [from_utf8, if_neg (by rw [h2]; exact Bool.false_ne_true)] at hnext
  rw [values_collect_error g _ _ .BadUTF8 (by simpa [Except.map] using hnext)]

theorem rows_collect_ok_last {α : Type} (g : Option (List Nat) → α) :
    ∀ (n : Nat) (data : List Nat) (l : List (List α)), data.length ≤ n →
      rows_collect g data = .ok l → data = [] ∨ data.getLast? = some END_ROW := by
  intro n
  induction n with
  | zero =>
    intro data l hlen _
    left
    cases data with
    | nil => rfl
    | cons b bs => simp at hlen
  | succ n ih =>
    intro data l hlen hok
    match hnext : rows_next data with
    | (none, s) => exact Or.inl (rows_next_stop_inv data s hnext)
    | (some (.error e), s) =>
      rw [rows_collect_error g _ _ e hnext] at hok
      cases hok
    | (some (.ok row), rest) =>
      obtain ⟨t, hp, hrow, hrest⟩ := rows_next_ok_inv data rest row hnext
      obtain ⟨y, hy, hsplit, hall⟩ := position_some_split _ data t hp
      have hyrow : y = END_ROW := by simpa using hy
      subst hyrow
      rw [rows_collect_ok g _ _ _ hnext] at hok
      cases hvals : values_collect g row.values with
      | error e =>
        rw [hvals] at hok
        cases hok
      | ok vs =>
        rw [hvals] at hok
        cases hrows : rows_collect g rest with
        | error e =>
          rw [hrows] at hok
          cases hok
        | ok l2 =>
          have hlt := rows_next_ok_length data rest row hnext
          have hrec := ih rest l2 (by omega) hrows
          right
          have hlast : data.getLast? = (data.take t ++ END_ROW :: data.drop (t + 1)).getLast? :=
            congrArg List.getLast? hsplit
          rw [← hrest] at hlast
          rcases hrec with hnil | hlast2
          · rw [hnil] at hlast
            rw [hlast]
            exact List.getLast?_concat _
          · have hne : rest ≠ [] := by
              intro hc
              rw [hc] at hlast2
              cases hlast2
            rw [hlast, getLast_append_right _ (END_ROW :: rest) (by simp)]
            obtain ⟨z, zs, hz⟩ : ∃ z zs, rest = z :: zs := by
              cases hrest2 : rest with
              | nil => exact absurd hrest2 hne
              | cons z zs => exact ⟨z, zs, rfl⟩
            rw [hz]
            rw [List.getLast?_cons_cons]
            rw [← hz]
            exact hlast2

theorem rows_collect_not_ok_of_bad_end {α : Type} (g : Option (List Nat) → α)
    (data : List Nat) (h0 : data ≠ []) (h1 : data.getLast? ≠ some END_ROW) :
    ∃ e, rows_collect g data = .error e := by
  cases hres : rows_collect g data with
  | error e => exact ⟨e, rfl⟩
  | ok l =>
    rcases rows_collect_ok_last g data.length data l (le_refl _) hres with hc | hc
    · exact absurd hc h0
    · exact absurd hc h1

/-! The owned decoder agrees with the borrowed decoder. -/

theorem values_collect_map {α : Type} (g : Option (List Nat) → α) :
    ∀ (n : Nat) (remain : List Nat), remain.length ≤ n →
    values_collect g remain
      = (values_collect (fun v => v) remain).map (List.map g) := by
  intro n
  induction n with
  | zero =>
    intro remain hlen
    have hnil : remain = [] := by
      cases remain with
      | nil => rfl
      | cons b bs => simp at hlen
    subst hnil
    rw [values_collect_stop g [] [] rfl, values_collect_stop _ [] [] rfl]
    rfl
  | succ n ih =>
    intro remain hlen
    match hnext : values_next remain with
    | (none, s) =>
      rw [values_collect_stop g _ _ hnext, values_collect_stop _ _ _ hnext]
      rfl
    | (some (.error e), s) =>
      rw [values_collect_error g _ _ e hnext, values_collect_error _ _ _ e hnext]
      rfl
    | (some (.ok v), rest) =>
      have hlt := values_next_ok_length remain rest v hnext
      rw [values_collect_ok g _ _ v hnext, values_collect_ok _ _ _ v hnext]
      rw [ih rest (by omega)]
      cases values_collect (fun v => v) rest <;> rfl

theorem rows_collect_map {α : Type} (g : Option (List Nat) → α) :
    ∀ (n : Nat) (remain : List Nat), remain.length ≤ n →
    rows_collect g remain
      = (rows_collect (fun v => v) remain).map (List.map (List.map g)) := by
  intro n
  induction n with
  | zero =>
    intro remain hlen
    have hnil : remain = [] := by
      cases remain with
      | nil => rfl
      | cons b bs => simp at hlen
    subst hnil
    rw [rows_collect_stop g [] [] rfl, rows_collect_stop _ [] [] rfl]
    rfl
  | succ n ih =>
    intro remain hlen
    match hnext : rows_next remain with
    | (none, s) =>
      rw [rows_collect_stop g _ _ hnext, rows_collect_stop _ _ _ hnext]
      rfl
    | (some (.error e), s) =>
      rw [rows_collect_error g _ _ e hnext, rows_collect_error _ _ _ e hnext]
      rfl
    | (some (.ok row), rest) =>
      have hlt := rows_next_ok_length remain rest row hnext
      rw [rows_collect_ok g _ _ _ hnext, rows_collect_ok _ _ _ _ hnext]
      rw [values_collect_map g row.values.length row.values (le_refl _)]
      cases values_collect (fun v => v) row.values with
      | error e => rfl
      | ok vs =>
        simp only [Except.map]
        rw [ih rest (by omega)]
        cases rows_collect (fun v => v) rest <;> rfl

/-! Lemmas about repeated start_row calls. -/

theorem start_rows_started (n : Nat) : ∀ buf : List Nat,
    start_rows n ⟨buf, true⟩ = ⟨buf ++ List.replicate n END_ROW, true⟩ := by
  induction n with
  | zero => intro buf; simp [start_rows]
  | succ n ih =>
    intro buf
    rw [start_rows]
    have hstep : (⟨buf, true⟩ : RsvWriter).start_row = ⟨buf ++ [END_ROW], true⟩ := rfl
    rw [hstep, ih]
    simp [List.replicate_succ, List.append_assoc]

theorem start_rows_finish (n : Nat) (hn : 1 ≤ n) :
    (start_rows n RsvWriter.new).finish = List.replicate n END_ROW := by
  cases n with
  | zero => omega
  | succ m =>
    rw [start_rows]
    have h1 : RsvWriter.new.start_row = (⟨[], true⟩ : RsvWriter) := rfl
    rw [h1, start_rows_started m []]
    show ([] ++ List.replicate m END_ROW) ++ [END_ROW] = List.replicate (m + 1) END_ROW
    rw [List.nil_append]
    exact (List.replicate_succ' _ _).symm

/-! Invariant carried by every writer state reachable through the API. -/

def writer_inv (w : RsvWriter) : Prop :=
  ∃ rows pending, good_doc rows = true ∧ good_row pending = true ∧
    w.buffer = doc_bytes rows ++ pending.flatMap value_bytes ∧
    (w.started_row = false → pending = [])

theorem good_doc_concat (rows : List (List (Option (List Nat))))
    (pending : List (Option (List Nat)))
    (hgd : good_doc rows = true) (hgr : good_row pending = true) :
    good_doc (rows ++ [pending]) = true := by
  apply good_doc_append rows [pending] hgd
  unfold good_doc
  rw [List.all_cons, hgr]
  rfl

theorem doc_bytes_concat (rows : List (List (Option (List Nat))))
    (pending : List (Option (List Nat))) :
    doc_bytes (rows ++ [pending])
      = (doc_bytes rows ++ pending.flatMap value_bytes) ++ [END_ROW] := by
  rw [doc_bytes_append]
  unfold doc_bytes row_bytes
  simp [List.append_assoc]

theorem start_row_inv (w : RsvWriter) (hinv : writer_inv w) :
    writer_inv w.start_row ∧ w.start_row.started_row = true := by
  obtain ⟨rows, pending, hgd, hgr, hbuf, hpend⟩ := hinv
  refine ⟨?_, rfl⟩
  cases hst : w.started_row with
  | false =>
    refine ⟨rows, [], hgd, rfl, ?_, fun _ => rfl⟩
    show (if w.started_row then w.buffer ++ [END_ROW] else w.buffer)
      = doc_bytes rows ++ ([] : List (Option (List Nat))).flatMap value_bytes
    rw [hst, if_neg Bool.false_ne_true, hbuf, hpend hst]
  | true =>
    refine ⟨rows ++ [pending], [], good_doc_concat rows pending hgd hgr, rfl, ?_, fun _ => rfl⟩
    show (if w.started_row then w.buffer ++ [END_ROW] else w.buffer)
      = doc_bytes (rows ++ [pending]) ++ ([] : List (Option (List Nat))).flatMap value_bytes
    rw [hst, if_pos rfl, hbuf, doc_bytes_concat]
    simp

theorem push_inv (w : RsvWriter) (v : Option (List Nat))
    (hst : w.started_row = true) (hgv : good_val v = true) (hinv : writer_inv w) :
    ∃ w2, w.push v = some w2 ∧ writer_inv w2 ∧ w2.started_row = true := by
  obtain ⟨rows, pending, hgd, hgr, hbuf, hpend⟩ := hinv
  obtain ⟨buf, st⟩ := w
  have hst2 : st = true := hst
  subst hst2
  refine ⟨⟨(buf ++ value_content v) ++ [END_VALUE], true⟩, push_started_eq buf v, ?_, rfl⟩
  refine ⟨rows, pending ++ [v], hgd, ?_, ?_, ?_⟩
  · unfold good_row
    rw [List.all_append]
    rw [show pending.all good_val = true from hgr]
    rw [List.all_cons, hgv]
    rfl
  · show (buf ++ value_content v) ++ [END_VALUE]
      = doc_bytes rows ++ (pending ++ [v]).flatMap value_bytes
    have hbuf2 : buf = doc_bytes rows ++ pending.flatMap value_bytes := hbuf
    rw [hbuf2, List.flatMap_append]
    simp [value_bytes, List.append_assoc]
  · intro hc
    cases hc

theorem run_calls_inv : ∀ (cs : List WriterCall) (w : RsvWriter),
    writer_inv w → calls_started_ok w.started_row cs = true →
    cs.all call_values_utf8 = true →
    ∃ w2, run_calls w cs = some w2 ∧ writer_inv w2 := by
  intro cs
  induction cs with
  | nil =>
    intro w hi _ _
    exact ⟨w, rfl, hi⟩
  | cons c cs ih =>
    intro w hi hok hutf
    simp only [List.all_cons, Bool.and_eq_true] at hutf
    have hutf1 := hutf.1
    have hutf2 := hutf.2
    cases c with
    | start_row =>
      obtain ⟨hinv2, hstarted⟩ := start_row_inv w hi
      have hok2 : calls_started_ok true cs = true := by
        rw [calls_started_ok] at hok
        exact hok
      obtain ⟨w2, hrun, hinv3⟩ := ih w.start_row hinv2 (by rw [hstarted]; exact hok2) hutf2
      refine ⟨w2, ?_, hinv3⟩
      rw [run_calls, run_call]
      exact hrun
    | push v =>
      rw [calls_started_ok, Bool.and_eq_true] at hok
      have hgv : good_val v = true := by
        cases v with
        | none => rfl
        | some s => exact hutf1
      obtain ⟨w2, hpush, hinv2, hstarted⟩ := push_inv w v hok.1 hgv hi
      obtain ⟨w3, hrun, hinv3⟩ := ih w2 hinv2 (by rw [hstarted]; rw [hok.1] at hok; exact hok.2) hutf2
      refine ⟨w3, ?_, hinv3⟩
      rw [run_calls, run_call, hpush]
      exact hrun
    | push_str s2 =>
      rw [calls_started_ok, Bool.and_eq_true] at hok
      have hgv : good_val (some s2) = true := hutf1
      obtain ⟨w2, hpush, hinv2, hstarted⟩ := push_inv w (some s2) hok.1 hgv hi
      obtain ⟨w3, hrun, hinv3⟩ := ih w2 hinv2 (by rw [hstarted]; rw [hok.1] at hok; exact hok.2) hutf2
      refine ⟨w3, ?_, hinv3⟩
      rw [run_calls, run_call]
      rw [show w.push_str s2 = w.push (some s2) from rfl]
      rw [hpush]
      exact hrun
    | push_null =>
      rw [calls_started_ok, Bool.and_eq_true] at hok
      obtain ⟨w2, hpush, hinv2, hstarted⟩ := push_inv w none hok.1 rfl hi
      obtain ⟨w3, hrun, hinv3⟩ := ih w2 hinv2 (by rw [hstarted]; rw [hok.1] at hok; exact hok.2) hutf2
      refine ⟨w3, ?_, hinv3⟩
      rw [run_calls, run_call]
      rw [show w.push_null = w.push none from rfl]
      rw [hpush]
      exact hrun

theorem writer_inv_new : writer_inv RsvWriter.new :=
  ⟨[], [], rfl, rfl, rfl, fun _ => rfl⟩

theorem writer_inv_finish (w : RsvWriter) (hinv : writer_inv w) :
    ∃ rows2, decode_rsv w.finish = .ok rows2 := by
  obtain ⟨rows, pending, hgd, hgr, hbuf, hpend⟩ := hinv
  cases hst : w.started_row with
  | false =>
    have hfin : w.finish = doc_bytes rows := by
      unfold RsvWriter.finish
      rw [hst, if_neg Bool.false_ne_true, hbuf, hpend hst]
      simp
    refine ⟨rows.map (List.map (fun v => v.map (fun s => to_string s))), ?_⟩
    rw [decode_rsv_eq, hfin]
    exact rows_collect_doc _ rows hgd
  | true =>
    have hfin : w.finish = doc_bytes (rows ++ [pending]) := by
      unfold RsvWriter.finish
      rw [hst, if_pos rfl, hbuf, doc_bytes_concat]
    refine ⟨(rows ++ [pending]).map (List.map (fun v => v.map (fun s => to_string s))), ?_⟩
    rw [decode_rsv_eq, hfin]
    exact rows_collect_doc _ (rows ++ [pending]) (good_doc_concat rows pending hgd hgr)

/-! Map collapse lemmas used to state the round trip. -/

theorem map_row_to_string (r : List (Option RustString)) :
    (r.map (Option.map RustString.data)).map (fun v => v.map (fun s => to_string s)) = r := by
  induction r with
  | nil => rfl
  | cons v vs ih =>
    rw [List.map_cons, List.map_cons, ih]
    cases v <;> rfl

theorem map_map_to_string (rows : List (List (Option RustString))) :
    (rows.map (List.map (Option.map RustString.data))).map
      (List.map (fun v => v.map (fun s => to_string s))) = rows := by
  induction rows with
  | nil => rfl
  | cons r rs ih =>
    rw [List.map_cons, List.map_cons, ih, map_row_to_string]

theorem good_row_map (row : List (Option RustString)) :
    good_row (row.map (Option.map RustString.data))
      = row.all (fun v => good_val (v.map RustString.data)) := by
  induction row with
  | nil => rfl
  | cons v vs ih =>
    unfold good_row at *
    rw [List.map_cons, List.all_cons, List.all_cons, ih]

theorem good_doc_map (rows : List (List (Option RustString))) :
    good_doc (rows.map (List.map (Option.map RustString.data)))
      = rows.all (fun row => row.all (fun v => good_val (v.map RustString.data))) := by
  induction rows with
  | nil => rfl
  | cons r rs ih =>
    unfold good_doc at *
    rw [List.map_cons, List.all_cons, List.all_cons, ih, good_row_map]

theorem map_row_id (r : List (Option (List Nat))) :
    r.map (Option.map (fun s => s)) = r := by
  induction r with
  | nil => rfl
  | cons v vs ih =>
    rw [List.map_cons, ih]
    cases v <;> rfl

theorem map_doc_id (rows : List (List (Option (List Nat)))) :
    rows.map (fun r => r.map (Option.map (fun s => s))) = rows := by
  induction rows with
  | nil => rfl
  | cons r rs ih =>
    rw [List.map_cons, ih, map_row_id]

/-! Claim theorems. -/

/-- Claim C1: for every sequence of rows of optional strings (strings being
valid UTF-8 byte sequences, the invariant the Rust String type provides),
decoding the encoding returns exactly the original data:
decode_rsv (encode_rsv rows) = Ok rows. -/
theorem round_trip_decode_encode (rows : List (List (Option RustString)))
    (h : rows.all (fun row => row.all (fun v => good_val (v.map RustString.data))) = true) :
    ∃ buffer, encode_rsv rows = some buffer ∧ decode_rsv buffer = .ok rows := by
  have he : encode_rsv rows
      = some (doc_bytes (rows.map (List.map (Option.map RustString.data)))) :=
    encode_rsv_eq rows
  refine ⟨doc_bytes (rows.map (List.map (Option.map RustString.data))), he, ?_⟩
  rw [decode_rsv_eq]
  have hgd : good_doc (rows.map (List.map (Option.map RustString.data))) = true := by
    rw [good_doc_map]
    exact h
  have hdec := rows_collect_doc (fun v => v.map (fun s => to_string s))
    (rows.map (List.map (Option.map RustString.data))) hgd
  rw [hdec, map_map_to_string]

/-- Witness for claim C1 at a concrete document with a string, a null and
an empty row. -/
theorem round_trip_decode_encode_witness :
    (([[some (to_string [0x48, 0x69]), none], []] : List (List (Option RustString))).all
        (fun row => row.all (fun v => good_val (v.map RustString.data))) = true) ∧
    ∃ buffer, encode_rsv [[some (to_string [0x48, 0x69]), none], []] = some buffer ∧
      decode_rsv buffer
        = .ok [[some (to_string [0x48, 0x69]), none], []] :=
  ⟨by decide, round_trip_decode_encode [[some (to_string [0x48, 0x69]), none], []] (by decide)⟩

/-- Claim C5: byte exact wire format of the documented example, and in
general each value is its raw bytes (or the null marker) plus 0xFF, each
row ending with 0xFD. -/
theorem encode_wire_format :
    encode_rsv [[some ([0x48, 0x65, 0x6C, 0x6C, 0x6F] : List Nat),
        some [0x77, 0x6F, 0x72, 0x6C, 0x64]], [none, some [0x61, 0x73, 0x64, 0x66]]]
      = some [0x48, 0x65, 0x6C, 0x6C, 0x6F, 0xFF, 0x77, 0x6F, 0x72, 0x6C, 0x64, 0xFF, 0xFD,
          0xFE, 0xFF, 0x61, 0x73, 0x64, 0x66, 0xFF, 0xFD] ∧
    ∀ rows : List (List (Option (List Nat))), encode_rsv rows = some (doc_bytes rows) := by
  constructor
  · rfl
  · intro rows
    have h : encode_rsv rows
        = some (doc_bytes (rows.map (fun r => r.map (Option.map (fun s => s))))) :=
      encode_rsv_eq rows
    rw [map_doc_id] at h
    exact h

/-- Claim C6: a null value decodes back as absent and its encoding is
distinct from the encoding of the empty string. -/
theorem null_value_distinct_from_empty :
    decode_rsv [0xFE, 0xFF, 0xFD] = .ok [[none]] ∧
    (RsvWriter.new.start_row.push none).map RsvWriter.finish = some [0xFE, 0xFF, 0xFD] ∧
    (RsvWriter.new.start_row.push (some [])).map RsvWriter.finish = some [0xFF, 0xFD] ∧
    decode_rsv [0xFF, 0xFD] = .ok [[some (to_string [])]] ∧
    ([0xFE, 0xFF, 0xFD] : List Nat) ≠ [0xFF, 0xFD] := by
  refine ⟨?_, by rfl, by rfl, ?_, by decide⟩
  · rw [decode_rsv_eq]
    rw [show ([0xFE, 0xFF, 0xFD] : List Nat) = doc_bytes [[none]] from rfl]
    rw [rows_collect_doc (fun v => v.map (fun s => to_string s)) [[none]] (by decide)]
    rfl
  · rw [decode_rsv_eq]
    rw [show ([0xFF, 0xFD] : List Nat) = doc_bytes [[some []]] from rfl]
    rw [rows_collect_doc (fun v => v.map (fun s => to_string s)) [[some []]] (by decide)]
    rfl

/-- Claim C9: the owned decoder agrees with the borrowed decoder: it
returns the same error on the same input, and on success the owned result
is the borrowed result with every borrowed view replaced by an owned copy
of the same string. -/
theorem decode_owned_borrowed_agree (data : List Nat) :
    decode_rsv data
      = (decode_rsv_borrowed data).map
          (List.map (List.map (Option.map (fun s => to_string s)))) := by
  rw [decode_rsv_eq, decode_rsv_borrowed_eq]
  exact rows_collect_map (fun v => v.map (fun s => to_string s)) data.length data (le_refl _)

/-- Claim C2 counterexample: the buffer 61 FD 61 has a last byte that is
not the row terminator, yet decode_rsv returns UnterminatedValue, not
UnterminatedRow: the first row fails before the missing final row
terminator is reached. -/
theorem malformed_input_counterexample :
    ([0x61, 0xFD, 0x61] : List Nat).getLast? = some 0x61 ∧
    decode_rsv [0x61, 0xFD, 0x61] = .error .UnterminatedValue ∧
    Error.UnterminatedValue ≠ Error.UnterminatedRow := by
  refine ⟨by decide, ?_, by decide⟩
  rw [decode_rsv_eq]
  rw [show ([0x61, 0xFD, 0x61] : List Nat) = [0x61] ++ END_ROW :: [0x61] from rfl]
  exact rows_collect_unterminated_value _ [0x61] [0x61] (by decide) (by decide) (by decide)

/-- Claim C2 (amended): decode_rsv reports the first malformation in scan
order.  A nonempty buffer containing no row terminator at all yields
UnterminatedRow; a nonempty buffer whose last byte is not the row
terminator yields some error, though an earlier malformation may take
precedence over UnterminatedRow; a leading row that is nonempty and has no
value terminator yields UnterminatedValue; a leading value span that is
not exactly the null marker and not valid UTF-8 yields BadUTF8.  The
documented examples follow. -/
theorem malformed_input_classification
    (data1 data2 row value rest1 rest2 : List Nat)
    (h1a : data1 ≠ []) (h1b : ∀ b ∈ data1, b ≠ END_ROW)
    (h2a : data2 ≠ []) (h2b : data2.getLast? ≠ some END_ROW)
    (h3a : row ≠ []) (h3b : ∀ b ∈ row, b ≠ END_VALUE) (h3c : ∀ b ∈ row, b ≠ END_ROW)
    (h4a : value ≠ [NULL_VALUE]) (h4b : validUtf8 value = false)
    (h4c : ∀ b ∈ value, b ≠ END_VALUE) (h4d : ∀ b ∈ value, b ≠ END_ROW) :
    decode_rsv data1 = .error .UnterminatedRow ∧
    (∃ e, decode_rsv data2 = .error e) ∧
    decode_rsv (row ++ END_ROW :: rest1) = .error .UnterminatedValue ∧
    decode_rsv ((value ++ [END_VALUE]) ++ END_ROW :: rest2) = .error .BadUTF8 ∧
    decode_rsv [0x61, 0x62, 0x63, 0xFF] = .error .UnterminatedRow ∧
    decode_rsv [0x61, 0x62, 0x63, 0xFD] = .error .UnterminatedValue ∧
    decode_rsv [0xC0, 0xFF, 0xFD] = .error .BadUTF8 := by
  refine ⟨?_, ?_, ?_, ?_, ?_, ?_, ?_⟩
  · rw [decode_rsv_eq]
    exact rows_collect_no_row_term _ data1 h1a h1b
  · rw [decode_rsv_eq]
    exact rows_collect_not_ok_of_bad_end _ data2 h2a h2b
  · rw [decode_rsv_eq]
    exact rows_collect_unterminated_value _ row rest1 h3a h3b h3c
  · rw [decode_rsv_eq]
    exact rows_collect_bad_utf8 _ value rest2 h4a h4b h4c h4d
  · rw [decode_rsv_eq]
    exact rows_collect_no_row_term _ _ (by decide) (by decide)
  · rw [decode_rsv_eq]
    rw [show ([0x61, 0x62, 0x63, 0xFD] : List Nat)
      = [0x61, 0x62, 0x63] ++ END_ROW :: [] from rfl]
    exact rows_collect_unterminated_value _ _ _ (by decide) (by decide) (by decide)
  · rw [decode_rsv_eq]
    rw [show ([0xC0, 0xFF, 0xFD] : List Nat)
      = ([0xC0] ++ [END_VALUE]) ++ END_ROW :: [] from rfl]
    exact rows_collect_bad_utf8 _ _ _ (by decide) (by decide) (by decide) (by decide)

/-- Witness for the amended claim C2 at concrete malformed buffers. -/
theorem malformed_input_classification_witness :
    decode_rsv [0x61, 0x62, 0x63, 0xFF] = .error .UnterminatedRow ∧
    (∃ e, decode_rsv [0x61, 0xFD, 0x61] = .error e) ∧
    decode_rsv ([0x61] ++ END_ROW :: ([] : List Nat)) = .error .UnterminatedValue ∧
    decode_rsv (([0xC0] ++ [END_VALUE]) ++ END_ROW :: ([] : List Nat)) = .error .BadUTF8 ∧
    decode_rsv [0x61, 0x62, 0x63, 0xFF] = .error .UnterminatedRow ∧
    decode_rsv [0x61, 0x62, 0x63, 0xFD] = .error .UnterminatedValue ∧
    decode_rsv [0xC0, 0xFF, 0xFD] = .error .BadUTF8 :=
  malformed_input_classification [0x61, 0x62, 0x63, 0xFF] [0x61, 0xFD, 0x61] [0x61] [0xC0] [] []
    (by decide) (by decide) (by decide) (by decide) (by decide) (by decide) (by decide)
    (by decide) (by decide) (by decide) (by decide)

/-- Claim C3: once the row iterator yields UnterminatedRow it yields the
identical error on every further call, never an Ok row and never clean
termination; likewise the value iterator after UnterminatedValue. -/
theorem unterminated_errors_repeat (remain1 remain2 : List Nat)
    (h1 : (rows_next remain1).1 = some (.error .UnterminatedRow))
    (h2 : (values_next remain2).1 = some (.error .UnterminatedValue)) :
    (∀ k, (rows_next_n remain1 k).1 = some (.error .UnterminatedRow)) ∧
    (∀ k, (values_next_n remain2 k).1 = some (.error .UnterminatedValue)) := by
  constructor
  · intro k
    rw [rows_next_n_fix remain1 (some (.error .UnterminatedRow))
      (rows_next_error_state remain1 .UnterminatedRow h1) k]
  · intro k
    rw [values_next_n_fix remain2 (some (.error .UnterminatedValue))
      (values_next_unterminated_state remain2 h2) k]

/-- Witness for claim C3 on the unterminated buffer 61. -/
theorem unterminated_errors_repeat_witness :
    ((rows_next [0x61]).1 = some (.error .UnterminatedRow)) ∧
    ((values_next [0x61]).1 = some (.error .UnterminatedValue)) ∧
    (rows_next_n [0x61] 5).1 = some (.error .UnterminatedRow) ∧
    (values_next_n [0x61] 7).1 = some (.error .UnterminatedValue) :=
  ⟨rfl, rfl,
    (unterminated_errors_repeat [0x61] [0x61] rfl rfl).1 5,
    (unterminated_errors_repeat [0x61] [0x61] rfl rfl).2 7⟩

/-- Claim C4 counterexample: on the row C0 FF 61 FF the first next() call
yields BadUTF8 but the second call yields Ok (the string 61), so the
iterator does not repeat the BadUTF8 error: the cursor was advanced. -/
theorem bad_utf8_cursor_counterexample :
    (values_next [0xC0, 0xFF, 0x61, 0xFF]).1 = some (.error .BadUTF8) ∧
    (values_next_n [0xC0, 0xFF, 0x61, 0xFF] 1).1 = some (.ok (some [0x61])) ∧
    (values_next_n [0xC0, 0xFF, 0x61, 0xFF] 1).1 ≠ some (.error .BadUTF8) := by
  refine ⟨rfl, rfl, ?_⟩
  intro hc
  have hc2 : some (Except.ok (some [0x61]))
      = (some (.error .BadUTF8) : Option (Except Error (Option (List Nat)))) := hc
  injection hc2 with hc3
  exact Except.noConfusion hc3

/-- Claim C4 (amended): when the value iterator yields BadUTF8 the cursor
has already been advanced past the offending value span and its
terminator (the assignment to the remaining slice happens before the
UTF-8 check), so subsequent calls scan the following values instead of
repeating the error; only the unterminated span errors are non advancing. -/
theorem bad_utf8_cursor_advances (remain : List Nat)
    (h : (values_next remain).1 = some (.error .BadUTF8)) :
    ∃ t, position (fun c => c == END_VALUE) remain = some t ∧
      (values_next remain).2 = remain.drop (t + 1) ∧
      (values_next remain).2.length < remain.length := by
  unfold values_next at h ⊢
  by_cases hemp : remain.isEmpty
  · rw [if_pos hemp] at h
    simp at h
  · rw [if_neg hemp] at h ⊢
    have hlen : 0 < remain.length := by
      cases remain with
      | nil => exact absurd rfl hemp
      | cons b bs => simp
    cases hp : position (fun c => c == END_VALUE) remain with
    | none =>
      simp only [hp] at h
      simp at h
    | some t =>
      refine ⟨t, rfl, ?_, ?_⟩
      · show (if List.take t remain = [NULL_VALUE]
            then (some (Except.ok none), List.drop (t + 1) remain)
            else (some (Except.map some (from_utf8 (List.take t remain))),
              List.drop (t + 1) remain)).2 = List.drop (t + 1) remain
        split_ifs <;> rfl
      · show (if List.take t remain = [NULL_VALUE]
            then (some (Except.ok none), List.drop (t + 1) remain)
            else (some (Except.map some (from_utf8 (List.take t remain))),
              List.drop (t + 1) remain)).2.length < remain.length
        split_ifs <;> simp only [List.length_drop] <;> omega

/-- Witness for the amended claim C4 on the row C0 FF 61 FF. -/
theorem bad_utf8_cursor_advances_witness :
    ((values_next [0xC0, 0xFF, 0x61, 0xFF]).1 = some (.error .BadUTF8)) ∧
    ∃ t, position (fun c => c == END_VALUE) [0xC0, 0xFF, 0x61, 0xFF] = some t ∧
      (values_next [0xC0, 0xFF, 0x61, 0xFF]).2 = List.drop (t + 1) [0xC0, 0xFF, 0x61, 0xFF] ∧
      (values_next [0xC0, 0xFF, 0x61, 0xFF]).2.length < ([0xC0, 0xFF, 0x61, 0xFF] : List Nat).length :=
  ⟨rfl, bad_utf8_cursor_advances [0xC0, 0xFF, 0x61, 0xFF] rfl⟩

/-- Claim C7: push (and push_str, push_null) fail fatally, modelled as the
none result, exactly when no row has been started; writers built by new,
with_capacity or with_buffer start with no started row, and on a started
writer push appends the value content (the string bytes, or the null
marker byte for an absent value) followed by the value terminator. -/
theorem push_requires_started_row (w : RsvWriter) (v : Option (List Nat)) (s : List Nat)
    (n : Nat) (b : List Nat) :
    RsvWriter.new.started_row = false ∧
    (RsvWriter.with_capacity n).started_row = false ∧
    (RsvWriter.with_buffer b).started_row = false ∧
    (w.started_row = false →
      w.push v = none ∧ w.push_str s = none ∧ w.push_null = none) ∧
    (w.started_row = true →
      w.push v = some ⟨(w.buffer ++ value_content v) ++ [END_VALUE], true⟩) := by
  refine ⟨rfl, rfl, rfl, ?_, ?_⟩
  · intro hst
    refine ⟨?_, ?_, ?_⟩ <;>
      simp [RsvWriter.push, RsvWriter.push_str, RsvWriter.push_null, hst]
  · intro hst
    obtain ⟨buf, st⟩ := w
    have hst2 : st = true := hst
    subst hst2
    exact push_started_eq buf v

/-- Witness for claim C7: pushing on a fresh writer fails, pushing after
start_row succeeds and appends the terminated value. -/
theorem push_requires_started_row_witness :
    RsvWriter.new.push none = none ∧
    RsvWriter.new.start_row.push (some [0x61]) = some ⟨[0x61, 0xFF], true⟩ := by
  constructor
  · exact ((push_requires_started_row RsvWriter.new none [] 0 []).2.2.2.1 rfl).1
  · exact (push_requires_started_row RsvWriter.new.start_row (some [0x61]) [] 0 []).2.2.2.2 rfl

/-- Claim C8: start_row emits the row terminator of the previous row
lazily (only when a previous row was started) and finish appends the final
terminator only when a row was started; hence n start_row calls with no
pushes followed by finish yield exactly n row terminator bytes, which
decode to n rows of zero values. -/
theorem lazy_row_terminators (n : Nat) (hn : 1 ≤ n) (w : RsvWriter) :
    (w.started_row = false → w.start_row = ⟨w.buffer, true⟩) ∧
    (w.started_row = true → w.start_row = ⟨w.buffer ++ [END_ROW], true⟩) ∧
    (w.started_row = false → w.finish = w.buffer) ∧
    (w.started_row = true → w.finish = w.buffer ++ [END_ROW]) ∧
    (start_rows n RsvWriter.new).finish = List.replicate n END_ROW ∧
    decode_rsv (start_rows n RsvWriter.new).finish
      = .ok (List.replicate n ([] : List (Option RustString))) := by
  refine ⟨?_, ?_, ?_, ?_, start_rows_finish n hn, ?_⟩
  · intro h
    unfold RsvWriter.start_row
    rw [h, if_neg Bool.false_ne_true]
  · intro h
    unfold RsvWriter.start_row
    rw [h, if_pos rfl]
  · intro h
    unfold RsvWriter.finish
    rw [h, if_neg Bool.false_ne_true]
  · intro h
    unfold RsvWriter.finish
    rw [h, if_pos rfl]
  · rw [start_rows_finish n hn, decode_rsv_eq, ← doc_bytes_replicate]
    rw [rows_collect_doc (fun v => v.map (fun s => to_string s))
      (List.replicate n []) (good_doc_replicate n)]
    rw [List.map_replicate]
    rfl

/-- Witness for claim C8 at n equal to 2. -/
theorem lazy_row_terminators_witness :
    1 ≤ 2 ∧
    (start_rows 2 RsvWriter.new).finish = List.replicate 2 END_ROW ∧
    decode_rsv (start_rows 2 RsvWriter.new).finish
      = .ok (List.replicate 2 ([] : List (Option RustString))) :=
  ⟨by decide,
    (lazy_row_terminators 2 (by decide) RsvWriter.new).2.2.2.2.1,
    (lazy_row_terminators 2 (by decide) RsvWriter.new).2.2.2.2.2⟩

/-- Claim C10: every call sequence on a writer created by new or
with_capacity in which each push family call is preceded by a start_row
(and, as the Rust str type guarantees, every pushed string is valid
UTF-8) runs without hitting the push assertion, and the finished buffer
decodes without error. -/
theorem writer_output_always_decodes (cs : List WriterCall) (n : Nat)
    (h1 : calls_started_ok false cs = true)
    (h2 : cs.all call_values_utf8 = true) :
    RsvWriter.with_capacity n = RsvWriter.new ∧
    ∃ w rows2, run_calls RsvWriter.new cs = some w ∧ decode_rsv w.finish = .ok rows2 := by
  refine ⟨rfl, ?_⟩
  obtain ⟨w2, hrun, hinv⟩ := run_calls_inv cs RsvWriter.new writer_inv_new h1 h2
  obtain ⟨rows2, hdec⟩ := writer_inv_finish w2 hinv
  exact ⟨w2, rows2, hrun, hdec⟩

/-- Witness for claim C10 on a concrete call sequence. -/
theorem writer_output_always_decodes_witness :
    calls_started_ok false [WriterCall.start_row, WriterCall.push_str [0x68, 0x69],
      WriterCall.push_null, WriterCall.start_row] = true ∧
    [WriterCall.start_row, WriterCall.push_str [0x68, 0x69], WriterCall.push_null,
      WriterCall.start_row].all call_values_utf8 = true ∧
    (RsvWriter.with_capacity 7 = RsvWriter.new ∧
      ∃ w rows2, run_calls RsvWriter.new [WriterCall.start_row, WriterCall.push_str [0x68, 0x69],
        WriterCall.push_null, WriterCall.start_row] = some w ∧
        decode_rsv w.finish = .ok rows2) :=
  ⟨by decide, by decide,
    writer_output_always_decodes [WriterCall.start_row, WriterCall.push_str [0x68, 0x69],
      WriterCall.push_null, WriterCall.start_row] 7 (by decide) (by decide)⟩
